import Mathlib

/-!
Verification development for the WinDirScope scanning and reporting core
(`src/WinDirScope_21.py`).  The filesystem is modelled as an inductive tree:
a file carries the outcome of `stat` (`none` models a failing `stat`, which
the code converts to size 0), and a directory carries the outcome of
`os.scandir` (`none` models a listing failure, which the code converts to an
`access_denied` node).  `Path.is_dir` never raises in CPython, so the
per-child `except ... continue` in `scan_directory` is unreachable and every
enumerated entry yields a linked child node.  IEEE floats are replaced by
exact rationals; `f"{x:.1f}"` formatting is modelled by round-half-even on
the exact value, which agrees with CPython on every input whose scaled value
is exactly representable (in particular on all inputs used in theorems).
-/

namespace WinDirScope

/-- One filesystem object as seen by the scanner: `file name stat` is a file
whose `stat()` either succeeds with a byte size or fails (`none`);
`dir name listing` is a directory whose `os.scandir` either succeeds with an
ordered entry list or fails (`none`). -/
inductive FS where
| file (name : String) (stat : Option Nat)
| dir (name : String) (listing : Option (List FS))

/-- The final path component of a filesystem object (`Path.name`). -/
def FS.name : FS → String
| .file nm _ => nm
| .dir nm _ => nm

/-- The `Node` dataclass of the source: path, name, is_dir, size, children,
level, access_denied. -/
inductive Node where
| mk (path name : String) (is_dir : Bool) (size : Nat) (children : List Node)
    (level : Nat) (access_denied : Bool)

def Node.path : Node → String
| .mk p _ _ _ _ _ _ => p

def Node.name : Node → String
| .mk _ nm _ _ _ _ _ => nm

def Node.is_dir : Node → Bool
| .mk _ _ d _ _ _ _ => d

def Node.size : Node → Nat
| .mk _ _ _ s _ _ _ => s

def Node.children : Node → List Node
| .mk _ _ _ _ cs _ _ => cs

def Node.level : Node → Nat
| .mk _ _ _ _ _ lvl _ => lvl

def Node.access_denied : Node → Bool
| .mk _ _ _ _ _ _ ad => ad

/-- Total size of a list of nodes (the running `node.size += child_node.size`). -/
def sumSizes (l : List Node) : Nat := (l.map Node.size).sum

/-- `ext_stats[ext] = ext_stats.get(ext, 0) + size`: add `v` to the bucket of
key `k` in an insertion-ordered table, appending a new bucket if absent. -/
def bump (m : List (String × Nat)) (k : String) (v : Nat) : List (String × Nat) :=
  match m with
  | [] => [(k, v)]
  | kv :: t => if kv.1 = k then (kv.1, kv.2 + v) :: t else kv :: bump t k v

/-- `sum(table.values())`. -/
def sumVals (m : List (String × Nat)) : Nat := (m.map Prod.snd).sum

/-- Python `x or 1` on a count: 1 when the count is 0, else the count. -/
def orOne (n : Nat) : Nat := if n = 0 then 1 else n

/-- ASCII lower-casing of one character (`str.lower` restricted to ASCII names). -/
def lcChar (c : Char) : Char :=
  if 'A' ≤ c ∧ c ≤ 'Z' then Char.ofNat (c.toNat + 32) else c

/-- ASCII lower-casing of a character list. -/
def lcStr (l : List Char) : List Char := l.map lcChar

/-- Index of the last occurrence of a dot in a name (`name.rfind('.')`),
`none` when the name has no dot. -/
def rfindDot : List Char → Option Nat
  | [] => none
  | c :: rest =>
      match rfindDot rest with
      | some j => some (j + 1)
      | none => if c = '.' then some (0 : Nat) else none

/-- `PurePath.suffix`: `name[i:]` for `i = name.rfind('.')` when
`0 < i < len(name) - 1`, and the empty suffix otherwise. -/
def pySuffix (name : List Char) : List Char :=
  match rfindDot name with
  | none => []
  | some i => if 0 < i ∧ i + 1 < name.length then name.drop i else []

/-- The sentinel bucket of the extension table. -/
def sansExt : String := "<sans extension>"

/-- `ext = path.suffix.lower(); if not ext: ext = "<sans extension>"`. -/
def extKey (name : String) : String :=
  let ext := lcStr (pySuffix name.toList)
  if ext = [] then sansExt else String.mk ext

/-- Round-half-even of `10 * n / 1024 ^ k` to an integer: the number of
tenths shown by `f"{num:.1f}"` for the exact value `n / 1024 ^ k`. -/
def roundTenths (n k : Nat) : Nat :=
  let d := 1024 ^ k
  let x := 10 * n
  let q := x / d
  let r := x % d
  if 2 * r < d then q else if d < 2 * r then q + 1 else if q % 2 = 0 then q else q + 1

/-- Decimal rendering of `n / 1024 ^ k` with exactly one digit after the
point, as produced by `f"{num:.1f}"`. -/
def fmtTenths (n k : Nat) : String :=
  Nat.repr (roundTenths n k / 10) ++ "." ++ Nat.repr (roundTenths n k % 10)

/-- The unit ladder of `human_size`. -/
def unitsList : List String := ["o", "Ko", "Mo", "Go", "To"]

/-- The loop of `human_size`: at step `k` the running float equals
`n / 1024 ^ k`, so `num_bytes < 1024` reads `n < 1024 ^ (k + 1)`; the loop
returns when the value fits or the top unit is reached. -/
def human_size_go (n : Nat) (k : Nat) : List String → String
  | [] => ""
  | u :: us =>
      if n < 1024 ^ (k + 1) ∨ u = "To" then fmtTenths n k ++ " " ++ u
      else human_size_go n (k + 1) us

/-- `human_size`: one decimal digit and the first unit of the ladder under
which the scaled value drops below 1024, capping at `"To"`. -/
def human_size (n : Nat) : String := human_size_go n 0 unitsList

/-- The index of the largest applicable unit for `n` bytes: the greatest
`k ≤ 4` with `1024 ^ k ≤ n`, and 0 for small `n` — the ladder caps at the
top unit instead of continuing past it. -/
def usedUnit (n : Nat) : Nat :=
  if n < 1024 then 0
  else if n < 1024 ^ 2 then 1
  else if n < 1024 ^ 3 then 2
  else if n < 1024 ^ 4 then 3
  else 4

/-- Mutable scanner state: the extension table closure variable `ext_stats`
and the number of invocations of the progress callback (the callback is
`App._progress_tick`, which increments `progress_current` by 1). -/
structure ScanSt where
  ext : List (String × Nat)
  ticks : Nat

mutual
/-- `_scan(path, level)` of `scan_directory`, with the mutated state threaded
explicitly.  A directory with a failed listing becomes an `access_denied`
node with no children and size 0 and the failure does not escape; a file adds
its size (0 when `stat` fails) to its extension bucket.  Directory node names
follow `path.name or str(path)`. -/
def pyScan (p : String) (fs : FS) (lvl : Nat) (st : ScanSt) : Node × ScanSt :=
  match fs with
  | .dir nm listing =>
      match listing with
      | none => (.mk p (if nm = "" then p else nm) true 0 [] lvl true, st)
      | some es =>
          let r := pyScanEntries p es (lvl + 1) st
          (.mk p (if nm = "" then p else nm) true (sumSizes r.1) r.1 lvl false, r.2)
  | .file nm stat =>
      let size := stat.getD 0
      (.mk p nm false size [] lvl false,
       { st with ext := bump st.ext (extKey nm) size })

/-- The `for entry in it` loop: the progress callback fires exactly once per
enumerated entry, before the entry is classified, and every entry's node is
linked. -/
def pyScanEntries (parent : String) (es : List FS) (lvl : Nat) (st : ScanSt) :
    List Node × ScanSt :=
  match es with
  | [] => ([], st)
  | e :: rest =>
      let st1 : ScanSt := { st with ticks := st.ticks + 1 }
      let r1 := pyScan (parent ++ "/" ++ e.name) e lvl st1
      let r2 := pyScanEntries parent rest lvl r1.2
      (r1.1 :: r2.1, r2.2)
end

/-- `scan_directory(root_path)`: returns `(root_node, ext_stats)`. -/
def scan_directory (rootPath : String) (fs : FS) : Node × List (String × Nat) :=
  let r := pyScan rootPath fs 0 ⟨[], 0⟩
  (r.1, r.2.ext)

/-- The value of `progress_current` after a completed scan: one callback tick
was recorded per enumerated entry. -/
def progress_current_final (rootPath : String) (fs : FS) : Nat :=
  (pyScan rootPath fs 0 ⟨[], 0⟩).2.ticks

mutual
/-- State-free projection of `pyScan`: the node built for one object. -/
def scanNode (p : String) (fs : FS) (lvl : Nat) : Node :=
  match fs with
  | .dir nm listing =>
      match listing with
      | none => .mk p (if nm = "" then p else nm) true 0 [] lvl true
      | some es =>
          let cs := scanNodes p es (lvl + 1)
          .mk p (if nm = "" then p else nm) true (sumSizes cs) cs lvl false
  | .file nm stat => .mk p nm false (stat.getD 0) [] lvl false

/-- State-free projection of `pyScanEntries`. -/
def scanNodes (parent : String) (es : List FS) (lvl : Nat) : List Node :=
  match es with
  | [] => []
  | e :: rest => scanNode (parent ++ "/" ++ e.name) e lvl :: scanNodes parent rest lvl
end

mutual
/-- Entries enumerated below one object: `os.scandir` of every listable
directory yields its entries; a file or an unlistable directory yields none.
This is both the number of progress callbacks of the scan and the per-level
`len(dirs) + len(files)` contribution of `count_entries`' `os.walk`. -/
def countRaw : FS → Nat
  | .file _ _ => 0
  | .dir _ none => 0
  | .dir _ (some es) => es.length + countRawList es

def countRawList : List FS → Nat
  | [] => 0
  | e :: rest => countRaw e + countRawList rest
end

/-- `count_entries(root_path)`: `os.walk` with errors ignored adds
`len(dirs) + len(files)` per visited directory, then clamps with
`max(total, 1)`. -/
def count_entries (fs : FS) : Nat := max (countRaw fs) 1

/-- Outcome of `on_select_folder` for a chosen path: either the path fails
the `path.exists()` check (error dialog, no worker thread is started), or the
worker is started and runs `scan_directory` to completion. -/
inductive ScanStart where
| rejected
| started (result : Node × List (String × Nat))

/-- `on_select_folder`, root validation only: `none` models a chosen path for
which `path.exists()` is false; any existing path — directory or not — passes
the check and the scan worker is started on it. -/
def on_select_folder (rootPath : String) (target : Option FS) : ScanStart :=
  match target with
  | none => .rejected
  | some fs => .started (scan_directory rootPath fs)

mutual
/-- The size invariant of a scanned tree: every directory node's size equals
the sum of the sizes of the children linked to it. -/
def sizeInvB : Node → Bool
  | .mk _ _ d s cs _ _ => (!d || (s == sumSizes cs)) && sizeInvListB cs

def sizeInvListB : List Node → Bool
  | [] => true
  | n :: rest => sizeInvB n && sizeInvListB rest
end

mutual
/-- Shape invariant of scanned trees: a directory node's size is the sum of
its children's sizes, and a file node has no children. -/
def wfB : Node → Bool
  | .mk _ _ d s cs _ _ =>
      (if d then s == sumSizes cs else cs.isEmpty) && wfListB cs

def wfListB : List Node → Bool
  | [] => true
  | n :: rest => wfB n && wfListB rest
end

mutual
/-- Sum of the sizes of all file (non-directory) nodes of a tree. -/
def fileSizes : Node → Nat
  | .mk _ _ d s cs _ _ => if d then fileSizesList cs else s

def fileSizesList : List Node → Nat
  | [] => 0
  | n :: rest => fileSizes n + fileSizesList rest
end

mutual
/-- Number of file (non-directory) nodes of a tree. -/
def fileCount : Node → Nat
  | .mk _ _ d _ cs _ _ => if d then fileCountList cs else 1

def fileCountList : List Node → Nat
  | [] => 0
  | n :: rest => fileCount n + fileCountList rest
end

/-- Decimal rendering of a natural number (`str(n)` on an `int`),
via Mathlib's base-10 digits. -/
def natToString (n : Nat) : String :=
  if n = 0 then "0" else String.mk (((Nat.digits 10 n).map Nat.digitChar).reverse)

/-- Numeric value of a decimal digit character. -/
def charVal (c : Char) : Nat := c.toNat - 48

/-- Re-parse a decimal string into a natural number (what a CSV consumer does
with a size cell). -/
def parseNat (s : String) : Nat := Nat.ofDigits 10 ((s.toList.map charVal).reverse)

/-- Round-half-even of a rational to an integer (the rounding of `format`). -/
def roundHE (q : ℚ) : ℤ :=
  let f := ⌊q⌋
  if q - f < 1/2 then f
  else if 1/2 < q - f then f + 1
  else if f % 2 = 0 then f else f + 1

/-- Left-pad a 4-decimal fraction part with zeros. -/
def pad4 (m : Nat) : String :=
  if m < 10 then "000" ++ Nat.repr m
  else if m < 100 then "00" ++ Nat.repr m
  else if m < 1000 then "0" ++ Nat.repr m
  else Nat.repr m

/-- `f"{q:.4f}"` on an exact rational value. -/
def fmtRat4 (q : ℚ) : String :=
  let t := roundHE (q * 10000)
  if t < 0 then "-" ++ Nat.repr ((-t).toNat / 10000) ++ "." ++ pad4 ((-t).toNat % 10000)
  else Nat.repr (t.toNat / 10000) ++ "." ++ pad4 (t.toNat % 10000)

/-- One row of the flattened tree, as built by `_flatten_tree`:
path, name, level, type, size (raw and human), percent of root total,
access_denied. -/
structure TreeRow where
  path : String
  name : String
  level : Nat
  type : String
  size_bytes : Nat
  size_human : String
  percent_total : ℚ
  access_denied : Bool

mutual
/-- The pre-order `visit` of `_flatten_tree`: emit this node's row, then the
rows of its children in order.  `total` is `self.root_node.size or 1`. -/
def flattenVisit (total : Nat) (n : Node) : List TreeRow :=
  match n with
  | .mk p nm d s cs lvl ad =>
      { path := p, name := nm, level := lvl,
        type := if d then "dossier" else "fichier",
        size_bytes := s, size_human := human_size s,
        percent_total := (s : ℚ) / (total : ℚ) * 100,
        access_denied := ad } :: flattenVisitList total cs

def flattenVisitList (total : Nat) : List Node → List TreeRow
  | [] => []
  | n :: rest => flattenVisit total n ++ flattenVisitList total rest
end

/-- `_flatten_tree`: the shared flattened row sequence of all tree exports. -/
def flattenTree (root : Node) : List TreeRow :=
  flattenVisit (orOne root.size) root

/-- Header row of `_export_tree_csv`. -/
def csvTreeHeader : List String :=
  ["Chemin complet", "Nom", "Niveau", "Type", "Taille (octets)",
   "Taille lisible", "% du total", "Accès refusé"]

/-- `_export_tree_csv`, modelled as the written cell matrix: one header row,
then one row of stringified cells per flattened tree row. -/
def exportTreeCsv (root : Node) : List (List String) :=
  csvTreeHeader ::
    (flattenTree root).map fun row =>
      [row.path, row.name, natToString row.level, row.type,
       natToString row.size_bytes, row.size_human,
       fmtRat4 row.percent_total,
       if row.access_denied then "Oui" else "Non"]

/-- The JSON values produced by `json.dump` (floats kept exact as rationals). -/
inductive Json where
| str (s : String)
| num (n : Nat)
| rat (q : ℚ)
| jbool (b : Bool)
| arr (items : List Json)
| obj (fields : List (String × Json))

/-- One flattened row as the JSON object written by `_export_tree_json`. -/
def rowToJson (row : TreeRow) : Json :=
  .obj [("path", .str row.path), ("name", .str row.name),
        ("level", .num row.level), ("type", .str row.type),
        ("size_bytes", .num row.size_bytes), ("size_human", .str row.size_human),
        ("percent_total", .rat row.percent_total),
        ("access_denied", .jbool row.access_denied)]

/-- `_export_tree_json`: `json.dump(rows)` over the same flattened rows. -/
def exportTreeJson (root : Node) : Json :=
  .arr ((flattenTree root).map rowToJson)

/-- Field lookup in a re-parsed JSON object. -/
def Json.lookupField (j : Json) (k : String) : Option Json :=
  match j with
  | .obj fields => fields.lookup k
  | _ => none

/-- Re-parse one object of the structured-data export: its `path` and
`size_bytes` fields, when both are present with the right shapes. -/
def jsonRowPair (j : Json) : Option (String × Nat) :=
  match j.lookupField ("path"), j.lookupField ("size_bytes") with
  | some (.str p), some (.num s) => some (p, s)
  | _, _ => none

/-- Re-parse the structured-data tree export: collect the `(path, size_bytes)`
pair of every object of the top-level array. -/
def jsonPathSizePairs (j : Json) : List (String × Nat) :=
  match j with
  | .arr items => items.filterMap jsonRowPair
  | _ => []

/-- Re-parse one delimited-text row: the path is the first cell and the raw
byte size is the decimal number in the fifth cell. -/
def csvRowPair (r : List String) : String × Nat :=
  match r with
  | p :: _ :: _ :: _ :: sz :: _ => (p, parseNat sz)
  | _ => ("", 0)

/-- Re-parse the delimited-text tree export: skip the header, then read the
path cell and the numeric size cell of every row. -/
def csvPathSizePairs (rows : List (List String)) : List (String × Nat) :=
  (rows.drop 1).map csvRowPair

/-- One record of `self.top_files`, as built by `_compute_top_files`. -/
structure FileRow where
  path : String
  name : String
  size_bytes : Nat
  size_human : String
  percent_total : ℚ
  level : Nat

mutual
/-- The `visit` of `_compute_top_files`: depth-first collection of every file
record in traversal-encounter order.  `total` is `self.root_node.size or 1`. -/
def visitFiles (total : Nat) (n : Node) : List FileRow :=
  match n with
  | .mk p nm d s cs lvl _ =>
      if d then visitFilesList total cs
      else [{ path := p, name := nm, size_bytes := s, size_human := human_size s,
              percent_total := (s : ℚ) / (total : ℚ) * 100, level := lvl }]

def visitFilesList (total : Nat) : List Node → List FileRow
  | [] => []
  | n :: rest => visitFiles total n ++ visitFilesList total rest
end

/-- Stable descending insertion by byte size: an incoming record passes the
records of strictly larger size and stops before the first record of equal or
smaller size, so records of equal size keep their original order. -/
def insertDesc (x : FileRow) : List FileRow → List FileRow
  | [] => [x]
  | y :: t => if x.size_bytes < y.size_bytes then y :: insertDesc x t else x :: y :: t

/-- `files.sort(key=lambda r: r["size_bytes"], reverse=True)`: Python's sort
is stable, and with `reverse=True` equal keys keep their original order; that
stable descending sort is computed here as an insertion sort. -/
def sortDesc : List FileRow → List FileRow
  | [] => []
  | x :: t => insertDesc x (sortDesc t)

/-- `_compute_top_files`: collect, stable-sort descending by size, keep the
first 100. -/
def compute_top_files (root : Node) : List FileRow :=
  (sortDesc (visitFiles (orOne root.size) root)).take 100

/-- Position-tagged copy of `insertDesc`, comparing the untagged records. -/
def insertDescT (x : Nat × FileRow) : List (Nat × FileRow) → List (Nat × FileRow)
  | [] => [x]
  | y :: t => if x.2.size_bytes < y.2.size_bytes then y :: insertDescT x t else x :: y :: t

/-- Position-tagged copy of `sortDesc`. -/
def sortDescT : List (Nat × FileRow) → List (Nat × FileRow)
  | [] => []
  | x :: t => insertDescT x (sortDescT t)

/-- Tag each element with its position, starting at `i`. -/
def tagFrom (i : Nat) : List FileRow → List (Nat × FileRow)
  | [] => []
  | x :: t => (i, x) :: tagFrom (i + 1) t

/-- The strict order realized by a stable descending sort of position-tagged
records: earlier means strictly larger size, or equal size and an earlier
original position. -/
def lexAfter (a b : Nat × FileRow) : Prop :=
  b.2.size_bytes < a.2.size_bytes ∨ (a.2.size_bytes = b.2.size_bytes ∧ a.1 < b.1)

/-- Stable descending sort of `(ext, size)` items by size
(`sorted(stats.items(), key=lambda kv: kv[1], reverse=True)`). -/
def insertDescKV (x : String × Nat) : List (String × Nat) → List (String × Nat)
  | [] => [x]
  | y :: t => if x.2 < y.2 then y :: insertDescKV x t else x :: y :: t

def sortDescKV : List (String × Nat) → List (String × Nat)
  | [] => []
  | x :: t => insertDescKV x (sortDescKV t)

/-- The percent of one extension bucket in `_export_ext_csv`:
denominator `sum(self.ext_stats.values()) or 1`. -/
def extPercent (stats : List (String × Nat)) (size : Nat) : ℚ :=
  (size : ℚ) / (orOne (sumVals stats) : ℚ) * 100

/-- Header row of `_export_ext_csv`. -/
def csvExtHeader : List String :=
  ["Extension", "Taille totale (octets)", "Taille lisible", "% du total"]

/-- `_export_ext_csv`, modelled as the written cell matrix. -/
def exportExtCsv (stats : List (String × Nat)) : List (List String) :=
  csvExtHeader ::
    (sortDescKV stats).map fun kv =>
      [kv.1, natToString kv.2, human_size kv.2, fmtRat4 (extPercent stats kv.2)]

/-- Root path used by the concrete test trees. -/
def rootP : String := "r"

/-- An existing empty directory root. -/
def fsEmptyRoot : FS := FS.dir rootP (some [])

/-- A root directory with a single one-byte file. -/
def fsOneEntry : FS := FS.dir rootP (some [FS.file ("a.txt") (some 1)])

/-- An existing root path that is a plain file, not a directory. -/
def fsFileRoot : FS := FS.file ("f.txt") (some 7)

/-- A root directory with one file whose extension is upper-case. -/
def fsUpperExt : FS := FS.dir rootP (some [FS.file ("A.TXT") (some 5)])

/-- A root directory with 150 files of pairwise-distinct sizes 150 down to 1,
listed in descending size order. -/
def fs150 : FS :=
  FS.dir rootP (some ((List.range 150).map fun i => FS.file ("f.bin") (some (150 - i))))

mutual
theorem pyScan_fst (p : String) (fs : FS) (lvl : Nat) (st : ScanSt) :
    (pyScan p fs lvl st).1 = scanNode p fs lvl := by
  match fs with
  | .file nm stat => simp [pyScan, scanNode]
  | .dir nm none => simp [pyScan, scanNode]
  | .dir nm (some es) =>
      simp only [pyScan, scanNode]
      rw [pyScanEntries_fst p es (lvl + 1) st]

theorem pyScanEntries_fst (parent : String) (es : List FS) (lvl : Nat) (st : ScanSt) :
    (pyScanEntries parent es lvl st).1 = scanNodes parent es lvl := by
  match es with
  | [] => simp [pyScanEntries, scanNodes]
  | e :: rest =>
      simp only [pyScanEntries, scanNodes]
      rw [pyScan_fst, pyScanEntries_fst]
end

mutual
theorem pyScan_ticks (p : String) (fs : FS) (lvl : Nat) (st : ScanSt) :
    (pyScan p fs lvl st).2.ticks = st.ticks + countRaw fs := by
  match fs with
  | .file nm stat => simp [pyScan, countRaw]
  | .dir nm none => simp [pyScan, countRaw]
  | .dir nm (some es) =>
      simp only [pyScan, countRaw]
      rw [pyScanEntries_ticks p es (lvl + 1) st]
      omega

theorem pyScanEntries_ticks (parent : String) (es : List FS) (lvl : Nat) (st : ScanSt) :
    (pyScanEntries parent es lvl st).2.ticks = st.ticks + es.length + countRawList es := by
  match es with
  | [] => simp [pyScanEntries, countRawList]
  | e :: rest =>
      simp only [pyScanEntries, countRawList]
      rw [pyScanEntries_ticks, pyScan_ticks]
      simp [List.length_cons]
      omega
end

theorem sumVals_bump (m : List (String × Nat)) (k : String) (v : Nat) :
    sumVals (bump m k v) = sumVals m + v := by
  induction m with
  | nil => simp [bump, sumVals]
  | cons kv t ih =>
      by_cases h : kv.1 = k
      · simp [bump, h, sumVals]
        omega
      · simp [bump, h, sumVals] at ih ⊢
        omega

mutual
theorem pyScan_ext (p : String) (fs : FS) (lvl : Nat) (st : ScanSt) :
    sumVals (pyScan p fs lvl st).2.ext = sumVals st.ext + fileSizes (scanNode p fs lvl) := by
  match fs with
  | .file nm stat => simp [pyScan, scanNode, fileSizes, sumVals_bump]
  | .dir nm none => simp [pyScan, scanNode, fileSizes, fileSizesList]
  | .dir nm (some es) =>
      simp only [pyScan, scanNode, fileSizes, if_true]
      rw [pyScanEntries_ext p es (lvl + 1) st]
      simp [pyScanEntries_fst]

theorem pyScanEntries_ext (parent : String) (es : List FS) (lvl : Nat) (st : ScanSt) :
    sumVals (pyScanEntries parent es lvl st).2.ext =
      sumVals st.ext + fileSizesList (pyScanEntries parent es lvl st).1 := by
  match es with
  | [] => simp [pyScanEntries, fileSizesList]
  | e :: rest =>
      simp only [pyScanEntries, fileSizesList]
      rw [pyScanEntries_ext, pyScan_ext]
      simp only [pyScan_fst]
      omega
end

mutual
theorem scanNode_sizeInv (p : String) (fs : FS) (lvl : Nat) :
    sizeInvB (scanNode p fs lvl) = true := by
  match fs with
  | .file nm stat => simp [scanNode, sizeInvB, sizeInvListB, sumSizes]
  | .dir nm none => simp [scanNode, sizeInvB, sizeInvListB, sumSizes]
  | .dir nm (some es) =>
      simp only [scanNode, sizeInvB, Bool.and_eq_true]
      exact ⟨by simp, scanNodes_sizeInv p es (lvl + 1)⟩

theorem scanNodes_sizeInv (parent : String) (es : List FS) (lvl : Nat) :
    sizeInvListB (scanNodes parent es lvl) = true := by
  match es with
  | [] => simp [scanNodes, sizeInvListB]
  | e :: rest =>
      simp only [scanNodes, sizeInvListB, Bool.and_eq_true]
      exact ⟨scanNode_sizeInv _ e lvl, scanNodes_sizeInv parent rest lvl⟩
end

theorem scanNodes_eq_map (parent : String) (es : List FS) (lvl : Nat) :
    scanNodes parent es lvl =
      es.map fun e => scanNode (parent ++ "/" ++ e.name) e lvl := by
  induction es with
  | nil => simp [scanNodes]
  | cons e rest ih => simp [scanNodes, ih]

/-- C1: every tree returned by `scan_directory` satisfies the size invariant —
each directory node's size equals the sum of the sizes of the children linked
to it (`sizeInvB` checks this at every node of the tree). -/
theorem C1_dir_size_eq_sum_of_children (rootPath : String) (fs : FS) :
    sizeInvB (scan_directory rootPath fs).1 = true := by
  have h := pyScan_fst rootPath fs 0 ⟨[], 0⟩
  simp only [scan_directory, h]
  exact scanNode_sizeInv rootPath fs 0

/-- C2: for the tree and the extension table returned by one `scan_directory`
call, the sum of all extension-table values equals the sum of the sizes of
all file (non-directory) nodes of the tree. -/
theorem C2_ext_table_sum_eq_file_sizes (rootPath : String) (fs : FS) :
    sumVals (scan_directory rootPath fs).2 = fileSizes (scan_directory rootPath fs).1 := by
  have h := pyScan_ext rootPath fs 0 ⟨[], 0⟩
  simp only [scan_directory]
  rw [pyScan_fst]
  simpa [sumVals] using h

theorem sumSizes_append (l1 l2 : List Node) :
    sumSizes (l1 ++ l2) = sumSizes l1 + sumSizes l2 := by
  simp [sumSizes]

/-- C4: a directory whose listing fails is returned as a node with
`access_denied = true`, size 0 and no children, with the scanner state
untouched and no error raised; inside any parent listing it is still linked
at its position among the parent's children, and the parent's size is the sum
of the other children's sizes — the denied child contributes 0. -/
theorem C4_denied_dir_linked_contributes_zero (p nm : String) (lvl : Nat) (st : ScanSt)
    (parent pnm dnm : String) (plvl : Nat) (es1 es2 : List FS) :
    pyScan p (.dir nm none) lvl st =
      (Node.mk p (if nm = "" then p else nm) true 0 [] lvl true, st) ∧
    (scanNode parent (.dir pnm (some (es1 ++ .dir dnm none :: es2))) plvl).children =
      scanNodes parent es1 (plvl + 1)
        ++ Node.mk (parent ++ "/" ++ dnm)
             (if dnm = "" then parent ++ "/" ++ dnm else dnm) true 0 [] (plvl + 1) true
          :: scanNodes parent es2 (plvl + 1) ∧
    (scanNode parent (.dir pnm (some (es1 ++ .dir dnm none :: es2))) plvl).size =
      sumSizes (scanNodes parent es1 (plvl + 1)) +
        sumSizes (scanNodes parent es2 (plvl + 1)) := by
  refine ⟨by simp [pyScan], ?_, ?_⟩
  · simp only [scanNode, Node.children]
    rw [scanNodes_eq_map, List.map_append, List.map_cons, ← scanNodes_eq_map,
      ← scanNodes_eq_map]
    simp [scanNode, FS.name]
  · simp only [scanNode, Node.size]
    rw [scanNodes_eq_map, List.map_append, List.map_cons, ← scanNodes_eq_map,
      ← scanNodes_eq_map, sumSizes_append]
    simp [scanNode, FS.name, sumSizes, Node.size]

/-- C3 (amended): a chosen root path that does not exist is rejected before
the scan worker starts; every existing root path — whether or not it is a
directory — passes validation, the worker is started, and `scan_directory`
returns a `(Node, extension table)` pair: a directory root yields a directory
node and a non-directory root yields a file node rather than a fatal error. -/
theorem C3_root_validation (p : String) :
    on_select_folder p none = ScanStart.rejected ∧
    (∀ fs : FS, on_select_folder p (some fs) = .started (scan_directory p fs)) ∧
    (∀ nm listing, (scan_directory p (.dir nm listing)).1.is_dir = true) ∧
    (∀ nm stat, (scan_directory p (.file nm stat)).1.is_dir = false) := by
  refine ⟨rfl, fun fs => rfl, fun nm listing => ?_, fun nm stat => rfl⟩
  cases listing <;> simp [scan_directory, pyScan, Node.is_dir]

/-- C3 counterexample: for an existing root that is a plain file (`f.txt` of
size 7), the `path.exists()` check passes, the worker starts, and the scan
returns a Node tree — a non-directory file node — instead of failing with a
fatal error as the claim states. -/
theorem C3_cex_file_root_scans :
    on_select_folder rootP (some fsFileRoot) =
      ScanStart.started (scan_directory rootP fsFileRoot) ∧
    (scan_directory rootP fsFileRoot).1.is_dir = false ∧
    (scan_directory rootP fsFileRoot).1.size = 7 := by
  exact ⟨rfl, by decide, by decide⟩

/-- C7 (amended): the progress callback fires exactly once per enumerated
directory entry, so the finalized `progress_current` equals the raw entry
total `countRaw`; `count_entries` returns `max(countRaw, 1)`, so the two
coincide exactly when the root contains at least one entry. -/
theorem C7_progress_counts_entries (rootPath : String) (fs : FS) :
    progress_current_final rootPath fs = countRaw fs ∧
    count_entries fs = max (countRaw fs) 1 ∧
    (1 ≤ countRaw fs → progress_current_final rootPath fs = count_entries fs) := by
  have h : progress_current_final rootPath fs = countRaw fs := by
    have := pyScan_ticks rootPath fs 0 ⟨[], 0⟩
    simpa [progress_current_final] using this
  refine ⟨h, rfl, fun h1 => ?_⟩
  simp [h, count_entries]
  omega

theorem C7_progress_counts_entries_witness :
    progress_current_final rootP fsOneEntry = count_entries fsOneEntry :=
  (C7_progress_counts_entries rootP fsOneEntry).2.2 (by decide)

/-- C7 counterexample: scanning an existing empty directory fires the
callback 0 times, while `count_entries` clamps its total to 1; the finalized
counter does not equal `count_entries`' value. -/
theorem C7_cex_empty_root :
    progress_current_final rootP fsEmptyRoot = 0 ∧ count_entries fsEmptyRoot = 1 := by
  exact ⟨by decide, by decide⟩

theorem rfindDot_eq_none (l : List Char) : rfindDot l = none ↔ ('.' : Char) ∉ l := by
  induction l with
  | nil => simp [rfindDot]
  | cons c rest ih =>
      cases h : rfindDot rest with
      | some j =>
          have : ('.' : Char) ∈ rest := by
            by_contra hmem
            rw [(ih.2 hmem)] at h
            exact Option.noConfusion h
          simp [rfindDot, h, this]
      | none =>
          have hrest : ('.' : Char) ∉ rest := ih.1 h
          by_cases hc : c = '.'
          · simp [rfindDot, h, hc]
          · simp [rfindDot, h, hc, hrest, Ne.symm hc]

theorem rfindDot_drop (l : List Char) (i : Nat) (h : rfindDot l = some i) :
    ∃ t, l.drop i = '.' :: t := by
  induction l generalizing i with
  | nil => simp [rfindDot] at h
  | cons c rest ih =>
      cases hr : rfindDot rest with
      | some j =>
          rw [rfindDot, hr] at h
          obtain rfl : j + 1 = i := Option.some.injEq _ _ ▸ h
          obtain ⟨t, ht⟩ := ih j hr
          exact ⟨t, by simpa [List.drop_succ_cons] using ht⟩
      | none =>
          rw [rfindDot, hr] at h
          by_cases hc : c = '.'
          · simp only [hc, if_pos rfl] at h
            obtain rfl : (0 : Nat) = i := Option.some.injEq _ _ ▸ h
            exact ⟨rest, by simp [hc]⟩
          · simp [hc] at h

/-- C6 (amended): the extension-table key of a file is the lower-cased text
of its name from the last `"."` onward — the dot is part of the key — while a
name with no dot, or whose only dot is the leading character, falls into the
`"<sans extension>"` sentinel bucket; every non-sentinel key starts with a
dot, and the scanner adds the file's size to the bucket of exactly that key. -/
theorem C6_ext_key_lowered_suffix (nm : String) :
    (('.' : Char) ∉ nm.toList → extKey nm = sansExt) ∧
    (∀ rest : List Char, nm.toList = '.' :: rest → ('.' : Char) ∉ rest →
      extKey nm = sansExt) ∧
    (∀ i : Nat, rfindDot nm.toList = some i → 0 < i → i + 1 < nm.toList.length →
      extKey nm = String.mk (lcStr (nm.toList.drop i))) ∧
    (extKey nm = sansExt ∨ ∃ t : List Char, extKey nm = String.mk ('.' :: t)) ∧
    (∀ (p : String) (stat : Option Nat) (lvl : Nat) (st : ScanSt),
      (pyScan p (.file nm stat) lvl st).2.ext = bump st.ext (extKey nm) (stat.getD 0)) := by
  refine ⟨?_, ?_, ?_, ?_, fun p stat lvl st => rfl⟩
  · intro h
    have hfind : rfindDot nm.data = none := (rfindDot_eq_none _).2 h
    simp [extKey, pySuffix, String.toList, hfind, lcStr]
  · intro rest hEq hNotin
    have hEq2 : nm.data = '.' :: rest := hEq
    have hfind : rfindDot nm.data = some 0 := by
      rw [hEq2, rfindDot, (rfindDot_eq_none rest).2 hNotin]
      simp
    simp [extKey, pySuffix, String.toList, hfind, lcStr]
  · intro i hFind h0 hLen
    have hFind2 : rfindDot nm.data = some i := hFind
    have hLen2 : i + 1 < nm.data.length := hLen
    have hLen3 : i + 1 < nm.length := hLen
    have hdrop : (nm.data.drop i).length = nm.data.length - i := List.length_drop i _
    have hne : lcStr (nm.data.drop i) ≠ [] := by
      have h1 : 0 < (nm.data.drop i).length := by omega
      have h2 : 0 < (lcStr (nm.data.drop i)).length := by
        simpa [lcStr] using h1
      exact List.ne_nil_of_length_pos h2
    simp [extKey, pySuffix, String.toList, hFind2, h0, hLen2, hLen3, hne]
  · cases hFind : rfindDot nm.data with
    | none => exact Or.inl (by simp [extKey, pySuffix, String.toList, hFind, lcStr])
    | some i =>
        by_cases hc : 0 < i ∧ i + 1 < nm.data.length
        · obtain ⟨t, ht⟩ := rfindDot_drop nm.data i hFind
          refine Or.inr ⟨lcStr t, ?_⟩
          have hne : lcStr (nm.data.drop i) ≠ [] := by
            rw [ht]
            simp [lcStr]
          have hdot : lcChar '.' = '.' := by decide
          have hlt : i + 1 < nm.length := hc.2
          have hnle : ¬(nm.length ≤ i + 1) := by omega
          simp [extKey, pySuffix, String.toList, hFind, hc, hne, ht, lcStr, hdot, hlt, hnle]
        · refine Or.inl ?_
          simp only [extKey, pySuffix, String.toList, hFind, lcStr]
          rw [if_neg hc]
          simp

theorem C6_ext_key_lowered_suffix_witness :
    extKey ("README") = sansExt ∧ extKey (".bashrc") = sansExt ∧
    extKey ("A.TXT") = String.mk (lcStr (("A.TXT").toList.drop 1)) :=
  ⟨(C6_ext_key_lowered_suffix ("README")).1 (by decide),
   (C6_ext_key_lowered_suffix (".bashrc")).2.1 (("bashrc").toList) (by decide) (by decide),
   (C6_ext_key_lowered_suffix ("A.TXT")).2.2.1 1 (by decide) (by decide) (by decide)⟩

/-- C6 counterexample: a file named `A.TXT` of size 5 is recorded under the
key `".txt"` — the lower-cased suffix including the dot — and not under
`"txt"`, the lower-cased text strictly after the last dot, so the claim's key
description fails on the code. -/
theorem C6_cex_key_keeps_dot :
    (scan_directory rootP fsUpperExt).2 = [((".txt"), 5)] ∧
    List.lookup ("txt") (scan_directory rootP fsUpperExt).2 = none := by
  exact ⟨by decide, by decide⟩

/-- C8: `human_size` renders any byte count as an integer part, a point,
exactly one decimal digit and a unit; the unit is the one at index
`usedUnit n` of the fixed five-unit 1024-ladder — the largest applicable
unit, capped at the top — and the three reference values come out as
`"0.0 o"`, `"1.5 Ko"` and `"1.0 Go"`. -/
theorem usedUnit_cases (n : Nat) :
    usedUnit n = 0 ∧ n < 1024 ∨
    usedUnit n = 1 ∧ 1024 ≤ n ∧ n < 1048576 ∨
    usedUnit n = 2 ∧ 1048576 ≤ n ∧ n < 1073741824 ∨
    usedUnit n = 3 ∧ 1073741824 ≤ n ∧ n < 1099511627776 ∨
    usedUnit n = 4 ∧ 1099511627776 ≤ n := by
  by_cases h0 : n < 1024
  · exact Or.inl ⟨by simp [usedUnit, h0], h0⟩
  · by_cases h1 : n < 1048576
    · exact Or.inr (Or.inl ⟨by simp [usedUnit, h0, h1], by omega, h1⟩)
    · by_cases h2 : n < 1073741824
      · exact Or.inr (Or.inr (Or.inl ⟨by simp [usedUnit, h0, h1, h2], by omega, h2⟩))
      · by_cases h3 : n < 1099511627776
        · exact Or.inr (Or.inr (Or.inr (Or.inl
            ⟨by simp [usedUnit, h0, h1, h2, h3], by omega, h3⟩)))
        · exact Or.inr (Or.inr (Or.inr (Or.inr
            ⟨by simp [usedUnit, h0, h1, h2, h3], by omega⟩)))

/-- C8: `human_size` renders any byte count as an integer part, a point,
exactly one decimal digit and a unit; the unit is the one at index
`usedUnit n` of the fixed five-unit 1024-ladder — the largest applicable
unit, capped at the top — and the three reference values come out as
`"0.0 o"`, `"1.5 Ko"` and `"1.0 Go"`. -/
theorem C8_human_size_format (n : Nat) :
    human_size n =
      Nat.repr (roundTenths n (usedUnit n) / 10) ++ "." ++
        Nat.repr (roundTenths n (usedUnit n) % 10) ++ " " ++
        unitsList.getD (usedUnit n) ("To") ∧
    roundTenths n (usedUnit n) % 10 < 10 ∧
    usedUnit n ≤ 4 ∧
    (usedUnit n = 4 ∨ n < 1024 ^ (usedUnit n + 1)) ∧
    (usedUnit n = 0 ∨ 1024 ^ usedUnit n ≤ n) ∧
    human_size 0 = "0.0 o" ∧ human_size 1536 = "1.5 Ko" ∧
    human_size 1073741824 = "1.0 Go" := by
  have e1 : (("o" : String) = "To") = False := by simp
  have e2 : (("Ko" : String) = "To") = False := by simp
  have e3 : (("Mo" : String) = "To") = False := by simp
  have e4 : (("Go" : String) = "To") = False := by simp
  have hmod : roundTenths n (usedUnit n) % 10 < 10 := Nat.mod_lt _ (by norm_num)
  rcases usedUnit_cases n with ⟨hu, hup⟩ | ⟨hu, hlo, hup⟩ | ⟨hu, hlo, hup⟩ |
    ⟨hu, hlo, hup⟩ | ⟨hu, hlo⟩
  · refine ⟨?_, hmod, by omega, Or.inr (by rw [hu]; norm_num; omega),
      Or.inl hu, by decide, by decide, by decide⟩
    rw [hu]
    simp [human_size, human_size_go, unitsList, fmtTenths, hup]
  · refine ⟨?_, hmod, by omega, Or.inr (by rw [hu]; norm_num; omega),
      Or.inr (by rw [hu]; norm_num; omega), by decide, by decide, by decide⟩
    rw [hu]
    simp [human_size, human_size_go, unitsList, fmtTenths, e1, hup,
      (show ¬n < 1024 by omega)]
  · refine ⟨?_, hmod, by omega, Or.inr (by rw [hu]; norm_num; omega),
      Or.inr (by rw [hu]; norm_num; omega), by decide, by decide, by decide⟩
    rw [hu]
    simp [human_size, human_size_go, unitsList, fmtTenths, e1, e2, hup,
      (show ¬n < 1024 by omega), (show ¬n < 1048576 by omega)]
  · refine ⟨?_, hmod, by omega, Or.inr (by rw [hu]; norm_num; omega),
      Or.inr (by rw [hu]; norm_num; omega), by decide, by decide, by decide⟩
    rw [hu]
    simp [human_size, human_size_go, unitsList, fmtTenths, e1, e2, e3, hup,
      (show ¬n < 1024 by omega), (show ¬n < 1048576 by omega),
      (show ¬n < 1073741824 by omega)]
  · refine ⟨?_, hmod, by omega, Or.inl hu,
      Or.inr (by rw [hu]; norm_num; omega), by decide, by decide, by decide⟩
    rw [hu]
    simp [human_size, human_size_go, unitsList, fmtTenths, e1, e2, e3, e4,
      (show ¬n < 1024 by omega), (show ¬n < 1048576 by omega),
      (show ¬n < 1073741824 by omega), (show ¬n < 1099511627776 by omega)]

theorem insertDesc_perm (x : FileRow) (l : List FileRow) :
    List.Perm (insertDesc x l) (x :: l) := by
  induction l with
  | nil => rfl
  | cons y t ih =>
      by_cases h : x.size_bytes < y.size_bytes
      · simp only [insertDesc, if_pos h]
        exact ((ih.cons y).trans (List.Perm.swap x y t))
      · simp [insertDesc, if_neg h]

theorem sortDesc_perm (l : List FileRow) : List.Perm (sortDesc l) l := by
  induction l with
  | nil => rfl
  | cons x t ih =>
      simp only [sortDesc]
      exact (insertDesc_perm x (sortDesc t)).trans (ih.cons x)

theorem insertDesc_pairwise (x : FileRow) (l : List FileRow)
    (h : l.Pairwise fun a b => b.size_bytes ≤ a.size_bytes) :
    (insertDesc x l).Pairwise fun a b => b.size_bytes ≤ a.size_bytes := by
  induction l with
  | nil => simp [insertDesc]
  | cons y t ih =>
      rcases List.pairwise_cons.1 h with ⟨hy, ht⟩
      by_cases hxy : x.size_bytes < y.size_bytes
      · simp only [insertDesc, if_pos hxy]
        refine List.pairwise_cons.2 ⟨?_, ih ht⟩
        intro z hz
        rcases List.mem_cons.1 ((insertDesc_perm x t).mem_iff.1 hz) with rfl | hz2
        · omega
        · exact hy z hz2
      · simp only [insertDesc, if_neg hxy]
        refine List.pairwise_cons.2 ⟨?_, h⟩
        intro z hz
        rcases List.mem_cons.1 hz with rfl | hz2
        · omega
        · have := hy z hz2
          omega

theorem sortDesc_pairwise (l : List FileRow) :
    (sortDesc l).Pairwise fun a b => b.size_bytes ≤ a.size_bytes := by
  induction l with
  | nil => simp [sortDesc]
  | cons x t ih =>
      simp only [sortDesc]
      exact insertDesc_pairwise x (sortDesc t) ih

theorem insertDescT_perm (x : Nat × FileRow) (l : List (Nat × FileRow)) :
    List.Perm (insertDescT x l) (x :: l) := by
  induction l with
  | nil => rfl
  | cons y t ih =>
      by_cases h : x.2.size_bytes < y.2.size_bytes
      · simp only [insertDescT, if_pos h]
        exact ((ih.cons y).trans (List.Perm.swap x y t))
      · simp [insertDescT, if_neg h]

theorem sortDescT_perm (l : List (Nat × FileRow)) : List.Perm (sortDescT l) l := by
  induction l with
  | nil => rfl
  | cons x t ih =>
      simp only [sortDescT]
      exact (insertDescT_perm x (sortDescT t)).trans (ih.cons x)

theorem insertDescT_pairwise (x : Nat × FileRow) (l : List (Nat × FileRow))
    (hx : ∀ y ∈ l, x.1 < y.1) (h : l.Pairwise lexAfter) :
    (insertDescT x l).Pairwise lexAfter := by
  induction l with
  | nil => simp [insertDescT, lexAfter]
  | cons y t ih =>
      rcases List.pairwise_cons.1 h with ⟨hy, ht⟩
      by_cases hxy : x.2.size_bytes < y.2.size_bytes
      · simp only [insertDescT, if_pos hxy]
        refine List.pairwise_cons.2
          ⟨?_, ih (fun z hz => hx z (List.mem_cons_of_mem y hz)) ht⟩
        intro z hz
        rcases List.mem_cons.1 ((insertDescT_perm x t).mem_iff.1 hz) with rfl | hz2
        · exact Or.inl hxy
        · exact hy z hz2
      · simp only [insertDescT, if_neg hxy]
        refine List.pairwise_cons.2 ⟨?_, h⟩
        intro z hz
        rcases List.mem_cons.1 hz with rfl | hz2
        · rcases Nat.lt_or_ge z.2.size_bytes x.2.size_bytes with hlt | hge
          · exact Or.inl hlt
          · exact Or.inr ⟨by omega, hx z (List.mem_cons_self z t)⟩
        · have hyz := hy z hz2
          have hxz := hx z (List.mem_cons_of_mem y hz2)
          rcases hyz with h1 | ⟨h1, h2⟩
          · exact Or.inl (by omega)
          · rcases Nat.lt_or_ge z.2.size_bytes x.2.size_bytes with hlt | hge2
            · exact Or.inl hlt
            · exact Or.inr ⟨by omega, hxz⟩

theorem sortDescT_pairwise (l : List (Nat × FileRow))
    (h : l.Pairwise fun a b => a.1 < b.1) : (sortDescT l).Pairwise lexAfter := by
  induction l with
  | nil => simp [sortDescT]
  | cons x t ih =>
      rcases List.pairwise_cons.1 h with ⟨hx, ht⟩
      simp only [sortDescT]
      refine insertDescT_pairwise x (sortDescT t) ?_ (ih ht)
      intro y hy
      exact hx y ((sortDescT_perm t).mem_iff.1 hy)

theorem mem_tagFrom (i : Nat) (l : List FileRow) (y : Nat × FileRow)
    (h : y ∈ tagFrom i l) : i ≤ y.1 := by
  induction l generalizing i with
  | nil => simp [tagFrom] at h
  | cons x t ih =>
      simp only [tagFrom] at h
      rcases List.mem_cons.1 h with rfl | h2
      · simp
      · have := ih (i + 1) h2
        omega

theorem tagFrom_pairwise (i : Nat) (l : List FileRow) :
    (tagFrom i l).Pairwise fun a b => a.1 < b.1 := by
  induction l generalizing i with
  | nil => simp [tagFrom]
  | cons x t ih =>
      simp only [tagFrom]
      refine List.pairwise_cons.2 ⟨?_, ih (i + 1)⟩
      intro y hy
      have := mem_tagFrom (i + 1) t y hy
      simp only []
      omega

theorem map_snd_insertDescT (x : Nat × FileRow) (l : List (Nat × FileRow)) :
    (insertDescT x l).map Prod.snd = insertDesc x.2 (l.map Prod.snd) := by
  induction l with
  | nil => simp [insertDescT, insertDesc]
  | cons y t ih =>
      by_cases h : x.2.size_bytes < y.2.size_bytes
      · simp [insertDescT, insertDesc, h, ih]
      · simp [insertDescT, insertDesc, h]

theorem map_snd_sortDescT (l : List (Nat × FileRow)) :
    (sortDescT l).map Prod.snd = sortDesc (l.map Prod.snd) := by
  induction l with
  | nil => simp [sortDescT, sortDesc]
  | cons x t ih =>
      simp only [sortDescT, sortDesc, List.map_cons]
      rw [map_snd_insertDescT, ih]

theorem map_snd_tagFrom (i : Nat) (l : List FileRow) :
    (tagFrom i l).map Prod.snd = l := by
  induction l generalizing i with
  | nil => simp [tagFrom]
  | cons x t ih => simp [tagFrom, ih]

mutual
theorem length_visitFiles (total : Nat) (n : Node) :
    (visitFiles total n).length = fileCount n := by
  match n with
  | .mk p nm d s cs lvl ad =>
      cases d
      · simp [visitFiles, fileCount]
      · simp only [visitFiles, fileCount, if_true]
        exact length_visitFilesList total cs

theorem length_visitFilesList (total : Nat) (l : List Node) :
    (visitFilesList total l).length = fileCountList l := by
  match l with
  | [] => simp [visitFilesList, fileCountList]
  | n :: rest =>
      simp only [visitFilesList, fileCountList, List.length_append]
      rw [length_visitFiles, length_visitFilesList]
end

set_option maxRecDepth 8000 in
set_option maxHeartbeats 1000000 in
/-- C5: the Top-K list of `_compute_top_files` has length `min F 100` for `F`
file nodes, is sorted descending by byte size, and is the image of a
position-tagged stable sort in which ties are strictly ordered by original
traversal position (`lexAfter`), so equal sizes keep encounter order; on the
concrete 150-file tree with distinct sizes 150..1, the list keeps 100 entries,
contains the 100th-largest size 51, and the 101st-largest size 50 is absent. -/
theorem C5_top_files_sorted_bounded (root : Node) :
    (compute_top_files root).length = min (fileCount root) 100 ∧
    (compute_top_files root).Pairwise (fun a b => b.size_bytes ≤ a.size_bytes) ∧
    compute_top_files root =
      ((sortDescT (tagFrom 0 (visitFiles (orOne root.size) root))).take 100).map
        Prod.snd ∧
    ((sortDescT (tagFrom 0 (visitFiles (orOne root.size) root))).take 100).Pairwise
      lexAfter ∧
    fileCount (scan_directory rootP fs150).1 = 150 ∧
    (compute_top_files (scan_directory rootP fs150).1).length = 100 ∧
    ((compute_top_files (scan_directory rootP fs150).1).any
      fun r => r.size_bytes == 51) = true ∧
    ((compute_top_files (scan_directory rootP fs150).1).all
      fun r => r.size_bytes != 50) = true := by
  have hpure := pyScan_fst rootP fs150 0 ⟨[], 0⟩
  refine ⟨?_, ?_, ?_, ?_, ?_, ?_, ?_, ?_⟩
  · simp only [compute_top_files, List.length_take]
    rw [(sortDesc_perm _).length_eq, length_visitFiles, Nat.min_comm]
  · exact (sortDesc_pairwise _).take
  · simp only [compute_top_files]
    rw [List.map_take, map_snd_sortDescT, map_snd_tagFrom]
  · exact (sortDescT_pairwise _ (tagFrom_pairwise 0 _)).take
  · simp only [scan_directory, hpure]
    decide
  · simp only [scan_directory, hpure]
    decide
  · simp only [scan_directory, hpure]
    decide
  · simp only [scan_directory, hpure]
    decide

theorem charVal_digitChar (d : Nat) (h : d < 10) : charVal (Nat.digitChar d) = d := by
  interval_cases d <;> rfl

theorem parseNat_natToString (n : Nat) : parseNat (natToString n) = n := by
  by_cases h : n = 0
  · subst h
    rfl
  · simp only [natToString, if_neg h, parseNat]
    have hl : (String.mk (((Nat.digits 10 n).map Nat.digitChar).reverse)).toList
        = ((Nat.digits 10 n).map Nat.digitChar).reverse := rfl
    rw [hl, List.map_reverse, List.reverse_reverse, List.map_map]
    have hmap : (Nat.digits 10 n).map (charVal ∘ Nat.digitChar) = Nat.digits 10 n := by
      conv_rhs => rw [← List.map_id (Nat.digits 10 n)]
      apply List.map_congr_left
      intro d hd
      exact charVal_digitChar d (Nat.digits_lt_base' hd)
    rw [hmap]
    exact Nat.ofDigits_digits 10 n

theorem jsonRowPair_rowToJson (row : TreeRow) :
    jsonRowPair (rowToJson row) = some (row.path, row.size_bytes) := rfl

theorem jsonRows_pairs (rows : List TreeRow) :
    (rows.map rowToJson).filterMap jsonRowPair =
      rows.map fun row => (row.path, row.size_bytes) := by
  induction rows with
  | nil => rfl
  | cons r t ih =>
      simp only [List.map_cons, List.filterMap_cons, jsonRowPair_rowToJson, ih]

/-- C9: re-parsing the delimited-text tree export and the structured-data
tree export of the same scan yields the same `(path, size)` pair sequence —
hence the same set — and both equal the projection of the shared flattened
row sequence of `_flatten_tree`. -/
theorem C9_csv_json_exports_same_pairs (root : Node) :
    csvPathSizePairs (exportTreeCsv root) = jsonPathSizePairs (exportTreeJson root) ∧
    csvPathSizePairs (exportTreeCsv root) =
      (flattenTree root).map fun row => (row.path, row.size_bytes) := by
  have hcsv : csvPathSizePairs (exportTreeCsv root) =
      (flattenTree root).map fun row => (row.path, row.size_bytes) := by
    simp only [csvPathSizePairs, exportTreeCsv, List.drop_succ_cons, List.drop_zero,
      List.map_map]
    apply List.map_congr_left
    intro row hrow
    simp [Function.comp, csvRowPair, parseNat_natToString]
  have hjson : jsonPathSizePairs (exportTreeJson root) =
      (flattenTree root).map fun row => (row.path, row.size_bytes) := by
    simp only [exportTreeJson, jsonPathSizePairs]
    exact jsonRows_pairs (flattenTree root)
  exact ⟨hcsv.trans hjson.symm, hcsv⟩

mutual
theorem scanNode_wf (p : String) (fs : FS) (lvl : Nat) :
    wfB (scanNode p fs lvl) = true := by
  match fs with
  | .file nm stat => simp [scanNode, wfB, wfListB]
  | .dir nm none => simp [scanNode, wfB, wfListB, sumSizes]
  | .dir nm (some es) =>
      simp only [scanNode, wfB, Bool.and_eq_true]
      exact ⟨by simp, scanNodes_wf p es (lvl + 1)⟩

theorem scanNodes_wf (parent : String) (es : List FS) (lvl : Nat) :
    wfListB (scanNodes parent es lvl) = true := by
  match es with
  | [] => simp [scanNodes, wfListB]
  | e :: rest =>
      simp only [scanNodes, wfListB, Bool.and_eq_true]
      exact ⟨scanNode_wf _ e lvl, scanNodes_wf parent rest lvl⟩
end

mutual
theorem flattenVisit_percent (total : Nat) (n : Node) :
    ∀ row ∈ flattenVisit total n,
      row.percent_total = (row.size_bytes : ℚ) / (total : ℚ) * 100 := by
  match n with
  | .mk p nm d s cs lvl ad =>
      intro row hrow
      simp only [flattenVisit, List.mem_cons] at hrow
      rcases hrow with rfl | hrow
      · rfl
      · exact flattenVisitList_percent total cs row hrow

theorem flattenVisitList_percent (total : Nat) (l : List Node) :
    ∀ row ∈ flattenVisitList total l,
      row.percent_total = (row.size_bytes : ℚ) / (total : ℚ) * 100 := by
  match l with
  | [] =>
      intro row hrow
      simp [flattenVisitList] at hrow
  | n :: rest =>
      intro row hrow
      simp only [flattenVisitList, List.mem_append] at hrow
      rcases hrow with h | h
      · exact flattenVisit_percent total n row h
      · exact flattenVisitList_percent total rest row h
end

mutual
theorem flattenVisit_size_zero (total : Nat) (n : Node) (hw : wfB n = true)
    (hz : n.size = 0) : ∀ row ∈ flattenVisit total n, row.size_bytes = 0 := by
  match n with
  | .mk p nm d s cs lvl ad =>
      intro row hrow
      have hz2 : s = 0 := hz
      simp only [wfB, Bool.and_eq_true] at hw
      have hcs : sumSizes cs = 0 := by
        cases d
        · have he : cs.isEmpty = true := by simpa using hw.1
          have he2 : cs = [] := by simpa using he
          simp [he2, sumSizes]
        · have hs : s = sumSizes cs := by simpa using hw.1
          omega
      simp only [flattenVisit, List.mem_cons] at hrow
      rcases hrow with rfl | hrow
      · exact hz2
      · exact flattenVisitList_size_zero total cs hw.2 hcs row hrow

theorem flattenVisitList_size_zero (total : Nat) (l : List Node)
    (hw : wfListB l = true) (hz : sumSizes l = 0) :
    ∀ row ∈ flattenVisitList total l, row.size_bytes = 0 := by
  match l with
  | [] =>
      intro row hrow
      simp [flattenVisitList] at hrow
  | n :: rest =>
      intro row hrow
      simp only [wfListB, Bool.and_eq_true] at hw
      have hsum : n.size + sumSizes rest = 0 := by
        have : sumSizes (n :: rest) = n.size + sumSizes rest := by
          simp [sumSizes]
        omega
      simp only [flattenVisitList, List.mem_append] at hrow
      rcases hrow with h | h
      · exact flattenVisit_size_zero total n hw.1 (by omega) row h
      · exact flattenVisitList_size_zero total rest hw.2 (by omega) row h
end

mutual
theorem visitFiles_percent (total : Nat) (n : Node) :
    ∀ r ∈ visitFiles total n,
      r.percent_total = (r.size_bytes : ℚ) / (total : ℚ) * 100 := by
  match n with
  | .mk p nm d s cs lvl ad =>
      intro r hr
      cases d
      · simp only [visitFiles, Bool.false_eq_true, if_false, List.mem_singleton] at hr
        subst hr
        rfl
      · simp only [visitFiles, if_true] at hr
        exact visitFilesList_percent total cs r hr

theorem visitFilesList_percent (total : Nat) (l : List Node) :
    ∀ r ∈ visitFilesList total l,
      r.percent_total = (r.size_bytes : ℚ) / (total : ℚ) * 100 := by
  match l with
  | [] =>
      intro r hr
      simp [visitFilesList] at hr
  | n :: rest =>
      intro r hr
      simp only [visitFilesList, List.mem_append] at hr
      rcases hr with h | h
      · exact visitFiles_percent total n r h
      · exact visitFilesList_percent total rest r h
end

mutual
theorem visitFiles_size_zero (total : Nat) (n : Node) (hw : wfB n = true)
    (hz : n.size = 0) : ∀ r ∈ visitFiles total n, r.size_bytes = 0 := by
  match n with
  | .mk p nm d s cs lvl ad =>
      intro r hr
      have hz2 : s = 0 := hz
      simp only [wfB, Bool.and_eq_true] at hw
      cases d
      · simp only [visitFiles, Bool.false_eq_true, if_false, List.mem_singleton] at hr
        subst hr
        exact hz2
      · have hs : s = sumSizes cs := by simpa using hw.1
        simp only [visitFiles, if_true] at hr
        exact visitFilesList_size_zero total cs hw.2 (by omega) r hr

theorem visitFilesList_size_zero (total : Nat) (l : List Node)
    (hw : wfListB l = true) (hz : sumSizes l = 0) :
    ∀ r ∈ visitFilesList total l, r.size_bytes = 0 := by
  match l with
  | [] =>
      intro r hr
      simp [visitFilesList] at hr
  | n :: rest =>
      intro r hr
      simp only [wfListB, Bool.and_eq_true] at hw
      have hsum : n.size + sumSizes rest = 0 := by
        have : sumSizes (n :: rest) = n.size + sumSizes rest := by
          simp [sumSizes]
        omega
      simp only [visitFilesList, List.mem_append] at hr
      rcases hr with h | h
      · exact visitFiles_size_zero total n hw.1 (by omega) r h
      · exact visitFilesList_size_zero total rest hw.2 (by omega) r h
end

/-- C10: every percentage denominator over scan results is guarded — `orOne`
is always positive — and on an empty scan result (root size 0) every tree-row
percentage and every Top-K percentage is 0, while an extension table with
total 0 yields only 0 percentages. -/
theorem C10_percent_denominators_guarded (rootPath : String) (fs : FS)
    (stats : List (String × Nat)) :
    (∀ n : Nat, 0 < orOne n) ∧
    ((scan_directory rootPath fs).1.size = 0 →
      ∀ row ∈ flattenTree (scan_directory rootPath fs).1, row.percent_total = 0) ∧
    ((scan_directory rootPath fs).1.size = 0 →
      ∀ r ∈ compute_top_files (scan_directory rootPath fs).1, r.percent_total = 0) ∧
    (sumVals stats = 0 → ∀ kv ∈ stats, extPercent stats kv.2 = 0) := by
  have horone : ∀ n : Nat, 0 < orOne n := by
    intro n
    unfold orOne
    split <;> omega
  have hroot : (scan_directory rootPath fs).1 = scanNode rootPath fs 0 := by
    simp [scan_directory, pyScan_fst]
  refine ⟨horone, ?_, ?_, ?_⟩
  · intro hz row hrow
    rw [hroot] at hz hrow
    simp only [flattenTree] at hrow
    have h1 := flattenVisit_percent (orOne (scanNode rootPath fs 0).size)
      (scanNode rootPath fs 0) row hrow
    have h0 := flattenVisit_size_zero (orOne (scanNode rootPath fs 0).size)
      (scanNode rootPath fs 0) (scanNode_wf rootPath fs 0) hz row hrow
    rw [h1, h0]
    norm_num
  · intro hz r hr
    rw [hroot] at hz hr
    simp only [compute_top_files] at hr
    have hr2 := (sortDesc_perm _).mem_iff.1 (List.mem_of_mem_take hr)
    have h1 := visitFiles_percent (orOne (scanNode rootPath fs 0).size)
      (scanNode rootPath fs 0) r hr2
    have h0 := visitFiles_size_zero (orOne (scanNode rootPath fs 0).size)
      (scanNode rootPath fs 0) (scanNode_wf rootPath fs 0) hz r hr2
    rw [h1, h0]
    norm_num
  · intro hz kv hkv
    have hv : kv.2 = 0 := by
      have hmem : kv.2 ∈ stats.map Prod.snd := List.mem_map_of_mem Prod.snd hkv
      have := (List.sum_eq_zero_iff.1 (by simpa [sumVals] using hz)) kv.2 hmem
      exact this
    rw [extPercent, hv]
    norm_num

theorem C10_percent_denominators_guarded_witness :
    0 < orOne 0 ∧
    ((flattenTree (scan_directory rootP fsEmptyRoot).1).all
      fun row => row.percent_total == 0) = true ∧
    extPercent [((sansExt), 0)] 0 = 0 := by
  refine ⟨(C10_percent_denominators_guarded rootP fsEmptyRoot []).1 0, ?_, ?_⟩
  · apply List.all_eq_true.2
    intro row hrow
    have h := (C10_percent_denominators_guarded rootP fsEmptyRoot []).2.1
      (by decide) row hrow
    simpa using h
  · exact (C10_percent_denominators_guarded rootP fsEmptyRoot
      [((sansExt), 0)]).2.2.2 (by decide) ((sansExt), 0) (List.mem_cons_self _ _)

end WinDirScope
